import Mathlib

/-!
Verification development for the document retrieval subsystem of the
hr-automation-dashboard repository (src/document_processor.py).

The Python module is shallowly embedded: texts are lists of characters
(`Str`), Python dicts are association lists with dict update semantics,
Python floats used for scores are modelled as exact rationals, and
Python sets are modelled as order-of-first-insertion deduplicated lists
(set iteration order is unspecified in Python; only set contents matter
for the properties proved here).  External library calls (hashlib.md5,
pypdf/docx extraction) are modelled as function parameters, since only
their functional dependence on the input matters to the statements.
-/

set_option maxRecDepth 100000

namespace HRDoc

/-- Texts are modelled as lists of characters (Python `str`). -/
abbrev Str := List Char

/-- Python `str.lower()` (ASCII model). -/
def lowerStr (s : Str) : Str := s.map Char.toLower

/-- Python `\s` whitespace class (ASCII model). -/
def isWsChar (c : Char) : Bool := c.isWhitespace

/-- Python `\w` word-character class (ASCII model): alphanumerics and underscore. -/
def isWordChar (c : Char) : Bool := c.isAlphanum || c = '_'

/-- Helper for `splitRuns`: `acc` holds the current run, reversed. -/
def splitRunsAux (p : Char → Bool) : Str → Str → List Str
  | acc, [] => if acc = [] then [] else [acc.reverse]
  | acc, c :: rest =>
    if p c then splitRunsAux p (c :: acc) rest
    else if acc = [] then splitRunsAux p [] rest
    else acc.reverse :: splitRunsAux p [] rest

/-- Maximal runs of characters satisfying `p`, in order. -/
def splitRuns (p : Char → Bool) (s : Str) : List Str := splitRunsAux p [] s

/-- Python `str.split()` with no argument: split on whitespace, dropping empties. -/
def splitWs (s : Str) : List Str := splitRuns (fun c => !(isWsChar c)) s

/-- Python `re.findall(r'\b\w+\b', s)`: the maximal word-character runs of `s`. -/
def pyFindallWords (s : Str) : List Str := splitRuns isWordChar s

/-- Python `' '.join(pieces)`. -/
def joinSp : List Str → Str
  | [] => []
  | [s] => s
  | s :: rest => s ++ ' ' :: joinSp rest

/-- Python `re.sub(r'\s+', ' ', text).strip()`: collapse whitespace runs to single
spaces and trim; equivalently the words of `text` joined by single spaces. -/
def normWs (text : Str) : Str := joinSp (splitWs text)

/-- Add an element to the back of a list unless it is already present
(the deterministic model used here for Python `set.add`). -/
def insertIfAbsent {α : Type} [DecidableEq α] (l : List α) (w : α) : List α :=
  if w ∈ l then l else l ++ [w]

/-- Model of Python `set(xs)`: deduplicate keeping first occurrences. -/
def setOf {α : Type} [DecidableEq α] (l : List α) : List α :=
  l.foldl insertIfAbsent []

/-- Model of Python `set.update`: add all elements of `ws` that are absent. -/
def unionL {α : Type} [DecidableEq α] (l : List α) (ws : List α) : List α :=
  ws.foldl insertIfAbsent l

/-- Python `l[-n:]` for `n` a non-negative int: the last `n` elements, or all of
`l` when `n = 0` (Python `l[-0:]` is `l[0:]`) or when `n ≥ len l`. -/
def pyLastN {α : Type} (n : ℕ) (l : List α) : List α :=
  if n = 0 then l else l.drop (l.length - n)

/-- Python `needle in hay` for strings: substring containment. -/
def strContains : Str → Str → Bool
  | hay, needle =>
    needle.isPrefixOf hay ||
      match hay with
      | [] => false
      | _ :: rest => strContains rest needle

/-- Helper for `occurrencePositions`: scan the text one character at a time;
`skip` counts characters still covered by the previous (non-overlapping) match. -/
def occAux (w : Str) : ℕ → ℕ → Str → List ℕ
  | _, _, [] => []
  | 0, i, t@(_ :: rest) =>
    if w.isPrefixOf t then i :: occAux w (w.length - 1) (i + 1) rest
    else occAux w 0 (i + 1) rest
  | k + 1, i, _ :: rest => occAux w k (i + 1) rest

/-- Start indices of the non-overlapping left-to-right occurrences of `w` in
`text`, as found by Python `re.finditer(re.escape(w), text)`.  For the empty
pattern Python reports a match at every position including the end. -/
def occurrencePositions (w text : Str) : List ℕ :=
  if w = [] then List.range (text.length + 1) else occAux w 0 0 text

/-- Python `text.count(w)`: number of non-overlapping occurrences. -/
def pyCount (w text : Str) : ℕ := (occurrencePositions w text).length

/-! ### Chunker (`chunk_text`, src/document_processor.py lines 93-158) -/

/-- Sentence-ending punctuation of the splitting regex `(?<=[.!?])\s+`. -/
def isSentencePunct (c : Char) : Bool := c = '.' || c = '!' || c = '?'

/-- Helper for `splitSentences`, modelling `re.split(r'(?<=[.!?])\s+', text)`.
`skip` records that we are inside the whitespace run of a just-matched
separator; `acc` holds the current piece, reversed.  `re.split` always returns
at least one piece (the empty string for empty input). -/
def sentAux : Bool → Str → Str → List Str
  | _, acc, [] => [acc.reverse]
  | skip, acc, c :: rest =>
    if skip && isWsChar c then sentAux true acc rest
    else if isSentencePunct c && (rest.head?.elim false isWsChar) then
      (c :: acc).reverse :: sentAux true [] rest
    else sentAux false (c :: acc) rest

/-- Python `re.split(r'(?<=[.!?])\s+', text)`. -/
def splitSentences (text : Str) : List Str := sentAux false [] text

/-- The sentence-packing loop of `chunk_text`: state is the closed chunks, the
pieces of the chunk under construction, and its running word count. -/
def chunkLoop (chunk_size overlap : ℕ) :
    List Str → List Str → List Str → ℕ → List Str × List Str
  | [], chunks, current, _ => (chunks, current)
  | s :: rest, chunks, current, count =>
    let sw := (splitWs s).length
    if count + sw ≤ chunk_size then
      chunkLoop chunk_size overlap rest chunks (current ++ [s]) (count + sw)
    else
      let chunks1 := if current = [] then chunks else chunks ++ [joinSp current]
      if chunks1 ≠ [] ∧ 0 < overlap then
        let prev_words := pyLastN overlap (splitWs (chunks1.getLastD []))
        chunkLoop chunk_size overlap rest chunks1 [joinSp prev_words, s]
          (prev_words.length + sw)
      else
        chunkLoop chunk_size overlap rest chunks1 [s] sw

/-- The word-windowing fallback loop of `chunk_text` (lines 150-156).  The
Python `while` loop does not terminate when `overlap ≥ chunk_size`; the fuel
argument (strictly larger than the number of iterations in the terminating
cases) makes the model total. -/
def wordWindowAux (chunk_size overlap : ℕ) (words : List Str) : ℕ → ℕ → List Str
  | 0, _ => []
  | fuel + 1, start =>
    if start < words.length then
      joinSp ((words.drop start).take chunk_size) ::
        wordWindowAux chunk_size overlap words fuel (start + chunk_size - overlap)
    else []

/-- The word-windowing fallback of `chunk_text`. -/
def wordWindow (chunk_size overlap : ℕ) (words : List Str) : List Str :=
  wordWindowAux chunk_size overlap words (words.length + 1) 0

/-- `chunk_text(text, chunk_size=250, overlap=50)` from src/document_processor.py. -/
def chunk_text (text : Str) (chunk_size : ℕ := 250) (overlap : ℕ := 50) : List Str :=
  let t := normWs text
  let sentences := splitSentences t
  if sentences = [] then (if t = [] then [] else [t])
  else
    let st := chunkLoop chunk_size overlap sentences [] [] 0
    let chunks := if st.2 = [] then st.1 else st.1 ++ [joinSp st.2]
    if chunks = [] then
      let words := splitWs t
      if words.length ≤ chunk_size then (if t = [] then [] else [t])
      else wordWindow chunk_size overlap words
    else chunks

example : chunk_text ("".data) 250 50 = [[]] := by decide
example : chunk_text ("  ".data) 250 50 = [[]] := by decide
example : chunk_text ("One two. Three four.".data) 3 1 =
    ["One two.".data, "two. Three four.".data] := by decide

/-! ### Document store (src/document_processor.py lines 161-292) -/

/-- One value of the persisted chunk mapping (`document_chunks.json`).
Metadata values are modelled as strings (an open string-keyed map in Python). -/
structure ChunkRec where
  doc_id : String
  doc_name : String
  chunk_index : ℕ
  text : Str
  metadata : List (String × String)
deriving DecidableEq

/-- The store: the full chunk mapping `chunk_id -> record`, modelled as an
association list with Python-dict semantics (update in place, insert at the
back, iteration in insertion order). -/
abbrev Store := List (String × ChunkRec)

/-- Python dict assignment `d[k] = v`: replace the value if the key is
present, otherwise append the binding. -/
def dictInsert (k : String) (v : ChunkRec) : Store → Store
  | [] => [(k, v)]
  | (k', v') :: rest =>
    if k' = k then (k, v) :: rest else (k', v') :: dictInsert k v rest

/-- Chunk identifier `f"{file_hash}_{i}"`. -/
def chunkId (file_hash : String) (i : ℕ) : String := file_hash ++ "_" ++ Nat.repr i

/-- `pathlib.Path(name).suffix`: the final `.ext` component, empty when the
name has no dot, only a leading dot, or a trailing dot. -/
def pySuffix (name : String) : String :=
  let rev := name.data.reverse
  let pre := rev.takeWhile (fun c => !(c = '.'))
  if pre.length = rev.length then ""
  else if pre = [] then ""
  else if pre.length + 1 = rev.length then ""
  else String.mk ('.' :: pre.reverse)

/-- Python `str.lower()` on a Lean `String` (ASCII model). -/
def lowerString (s : String) : String := String.mk (lowerStr s.data)

/-- The document info dict returned by `save_document`. -/
structure DocInfo where
  id : String
  filename : String
  file_type : String
  metadata : List (String × String)
  chunk_count : ℕ
  total_chars : ℕ
deriving DecidableEq

/-- Write the chunk records of one document into the store, in index order. -/
def putChunks (ps : List (String × ChunkRec)) (store : Store) : Store :=
  ps.foldl (fun st p => dictInsert p.1 p.2 st) store

/-- The chunk records written by `save_document` for a document with content
hash `h`, display name `filename`, metadata `meta` and chunk texts `chunks`. -/
def chunkRecords (h : String) (filename : String) (meta : List (String × String))
    (chunks : List Str) : List (String × ChunkRec) :=
  chunks.enum.map (fun ic =>
    (chunkId h ic.1,
      { doc_id := h, doc_name := filename, chunk_index := ic.1,
        text := ic.2, metadata := meta }))

/-- `save_document(filename, content, metadata)` (lines 166-225), as a pure
transition on the store.  The content hash (`hashlib.md5`) and the text
extraction (`extract_text_from_file`, which dispatches on the lower-cased
filename suffix and may call the external pypdf/python-docx libraries) are
external to the repository and are passed in as functions of exactly the
arguments the Python code feeds them: the hash is a function of the raw
content, extraction a function of the content and the file extension.
Writing of the raw file to disk is outside the store model. -/
def save_document (hash : Str → String) (extract : Str → String → Str)
    (filename : String) (content : Str) (meta : List (String × String))
    (store : Store) : DocInfo × Store :=
  let file_hash := hash content
  let file_ext := lowerString (pySuffix filename)
  let text := extract content file_ext
  let chunks := chunk_text text 250 50
  let doc_info : DocInfo :=
    { id := file_hash, filename := filename, file_type := file_ext,
      metadata := meta, chunk_count := chunks.length, total_chars := text.length }
  (doc_info, putChunks (chunkRecords file_hash filename meta chunks) store)

/-- `load_all_chunks()` (lines 228-236).  The argument models the state of the
persisted file: `none` when `CHUNKS_FILE` does not exist, `some none` when it
exists but `json.load` raises (the bare `except` branch), `some (some s)` when
it parses to the mapping `s`. -/
def load_all_chunks : Option (Option Store) → Store
  | none => []
  | some none => []
  | some (some s) => s

/-- `delete_document(doc_id)` (lines 245-272): remove every chunk whose
`doc_id` matches, and report whether any was removed.  Removal of the backing
raw file is outside the store model. -/
def delete_document (doc_id : String) (store : Store) : Bool × Store :=
  let chunks_to_remove :=
    (store.filter (fun p => decide (p.2.doc_id = doc_id))).map Prod.fst
  let store' := store.filter (fun p => !(chunks_to_remove.contains p.1))
  (decide (0 < chunks_to_remove.length), store')

/-- One summary of `get_all_documents`. -/
structure DocSummary where
  id : String
  filename : String
  chunk_count : ℕ
  metadata : List (String × String)
deriving DecidableEq

/-- The body of the `get_all_documents` grouping loop: on seeing a chunk
record, create the document's summary entry if absent, then increment its
chunk count. -/
def groupStep (docs : List (String × DocSummary)) (p : String × ChunkRec) :
    List (String × DocSummary) :=
  let doc_id := p.2.doc_id
  let docs1 :=
    if docs.any (fun q => decide (q.1 = doc_id)) then docs
    else docs ++ [(doc_id,
      { id := doc_id, filename := p.2.doc_name, chunk_count := 0,
        metadata := p.2.metadata })]
  docs1.map (fun q =>
    if q.1 = doc_id then (q.1, { q.2 with chunk_count := q.2.chunk_count + 1 })
    else q)

/-- `get_all_documents()` (lines 275-292): group the stored chunks by
document id, in first-seen order. -/
def get_all_documents (store : Store) : List DocSummary :=
  (store.foldl groupStep []).map Prod.snd

/-- `has_uploaded_documents()` (lines 547-549). -/
def has_uploaded_documents (store : Store) : Bool := !store.isEmpty

/-! ### Retrieval engine (src/document_processor.py lines 295-477) -/

/-- The `HR_SYNONYMS` table (lines 296-317), in source order. -/
def HR_SYNONYMS : List (Str × List Str) :=
  [("compensation", ["salary", "pay", "wage", "wages", "payment", "earnings",
      "income", "rate", "hourly", "$", "usd", "stipend", "remuneration"]),
   ("salary", ["compensation", "pay", "wage", "wages", "payment", "earnings",
      "income", "$", "annual", "yearly"]),
   ("pay", ["salary", "compensation", "wage", "wages", "payment", "earnings",
      "income", "$"]),
   ("benefits", ["insurance", "health", "dental", "vision", "401k",
      "retirement", "pto", "vacation", "perks", "package"]),
   ("vacation", ["pto", "time off", "leave", "holiday", "holidays",
      "days off", "paid leave"]),
   ("leave", ["pto", "vacation", "time off", "absence", "sick", "parental",
      "maternity", "paternity"]),
   ("requirements", ["qualifications", "required", "must have", "experience",
      "skills", "education", "degree"]),
   ("qualifications", ["requirements", "required", "experience", "skills",
      "education", "credentials"]),
   ("responsibilities", ["duties", "tasks", "role", "job duties",
      "accountabilities", "work", "perform"]),
   ("duties", ["responsibilities", "tasks", "job duties", "accountabilities",
      "work"]),
   ("experience", ["years", "background", "expertise", "history", "prior",
      "previous"]),
   ("skills", ["abilities", "competencies", "proficiency", "expertise",
      "knowledge"]),
   ("policy", ["policies", "procedure", "procedures", "guidelines", "rules",
      "handbook"]),
   ("employee", ["staff", "worker", "team member", "personnel", "hire"]),
   ("manager", ["supervisor", "lead", "director", "boss", "head"]),
   ("intern", ["internship", "trainee", "apprentice", "entry level",
      "junior"]),
   ("job", ["position", "role", "opportunity", "opening", "employment"]),
   ("location", ["office", "remote", "hybrid", "onsite", "work from home",
      "wfh", "city", "address"]),
   ("description", ["jd", "job description", "role description", "overview",
      "summary"]),
   ("hr", ["human resources", "people", "people operations", "talent",
      "personnel"])].map (fun kv => (kv.1.data, kv.2.map String.data))

/-- The `STOPWORDS` set (lines 320-337).  The Python source lists `'me'`
twice; as a membership test the duplicate is irrelevant. -/
def STOPWORDS : List Str :=
  ["a", "an", "the", "is", "are", "was", "were", "be", "been", "being",
   "have", "has", "had", "do", "does", "did", "will", "would", "could",
   "should", "may", "might", "must", "shall", "can", "need", "dare",
   "ought", "used", "to", "of", "in", "for", "on", "with", "at", "by",
   "from", "up", "about", "into", "through", "during", "before", "after",
   "above", "below", "between", "under", "again", "further", "then",
   "once", "here", "there", "when", "where", "why", "how", "all", "each",
   "few", "more", "most", "other", "some", "such", "no", "nor", "not",
   "only", "own", "same", "so", "than", "too", "very", "s", "t", "just",
   "don", "now", "i", "me", "my", "myself", "we", "our", "ours",
   "ourselves", "you", "your", "yours", "yourself", "yourselves", "he",
   "him", "his", "himself", "she", "her", "hers", "herself", "it", "its",
   "itself", "they", "them", "their", "theirs", "themselves", "what",
   "which", "who", "whom", "this", "that", "these", "those", "am", "and",
   "but", "if", "or", "because", "as", "until", "while", "although",
   "find", "tell", "me", "please", "help", "get", "give", "show",
   "list"].map String.data

/-- The tokenized query with stopwords removed:
`set(re.findall(r'\b\w+\b', query.lower())) - STOPWORDS`. -/
def originalWords (query : Str) : List Str :=
  (setOf (pyFindallWords (lowerStr query))).filter (fun w => decide (w ∉ STOPWORDS))

/-- `expand_query_with_synonyms(query)` (lines 340-369): tokenize and
lower-case the query, drop stopwords, then add for each remaining word the
synonyms of its table entry and, for every table row containing it as a
synonym, the row's key and all its siblings. -/
def expand_query_with_synonyms (query : Str) : List Str :=
  let query_words := originalWords query
  query_words.foldl (fun expanded word =>
    let expanded1 :=
      match HR_SYNONYMS.find? (fun kv => decide (kv.1 = word)) with
      | some kv => unionL expanded kv.2
      | none => expanded
    HR_SYNONYMS.foldl (fun e kv =>
      if word ∈ kv.2 then unionL (unionL e [kv.1]) kv.2 else e) expanded1)
    query_words

/-- The weight of an exactly-matched term (lines 408-411):
`(3.0 if original else 1.0) * (1 + len(word)/10)`. -/
def termWeight (ow : List Str) (w : Str) : ℚ :=
  (if w ∈ ow then 3 else 1) * (1 + (w.length : ℚ) / 10)

/-- Whether `t` and `w` fuzzily match (line 420): `w in t or t in w`. -/
def fuzzyHit (w t : Str) : Bool := strContains t w || strContains w t

/-- The score contribution of one expanded query term (lines 402-424):
stopwords are skipped; a term present verbatim in the chunk's token set
contributes its occurrence count times its weight; otherwise a term longer
than 3 characters contributes 1.5 (original) or 0.5 (expanded-only) if some
chunk token contains it or is contained in it. -/
def termContribution (ow tWords : List Str) (textL : Str) (w : Str) : ℚ :=
  if w ∈ STOPWORDS then 0
  else if w ∈ tWords then (pyCount w textL : ℚ) * termWeight ow w
  else if 3 < w.length then
    match tWords.find? (fun t => fuzzyHit w t) with
    | some _ => if w ∈ ow then 3 / 2 else 1 / 2
    | none => 0
  else 0

/-- The match markers appended for one expanded query term: the term itself on
an exact match, `f"{word}~{text_word}"` on a fuzzy match against the first
matching token, nothing otherwise. -/
def termMark (tWords : List Str) (w : Str) : List Str :=
  if w ∈ STOPWORDS then []
  else if w ∈ tWords then [w]
  else if 3 < w.length then
    match tWords.find? (fun t => fuzzyHit w t) with
    | some t => [w ++ '~' :: t]
    | none => []
  else []

/-- The total term-overlap score of the scoring loop (lines 399-424), the sum
of the per-term contributions over the expanded term list. -/
def chunkTermScore (qw ow tWords : List Str) (textL : Str) : ℚ :=
  (qw.map (termContribution ow tWords textL)).sum

/-- The accumulated match markers of the scoring loop. -/
def chunkTermMatches (qw tWords : List Str) : List Str :=
  (qw.map (termMark tWords)).flatten

/-- Character class `[\d,]` of the dollar-amount pattern. -/
def isDigitComma (c : Char) : Bool := c.isDigit || c = ','

/-- Split a maximal run of characters satisfying `p` off the front. -/
def pRun (p : Char → Bool) (s : Str) : Str × Str := (s.takeWhile p, s.dropWhile p)

/-- Optional cents group `(?:\.\d{2})?`: consume `.dd` when present. -/
def pCents : Str → Str × Str
  | '.' :: a :: b :: r => if a.isDigit && b.isDigit then (['.', a, b], r) else ([], '.' :: a :: b :: r)
  | s => ([], s)

/-- One dollar amount `\$[\d,]+(?:\.\d{2})?`: returns the matched prefix and
the rest, or `none`. -/
def pDollarAmount : Str → Option (Str × Str)
  | '$' :: r =>
    let dr := pRun isDigitComma r
    if dr.1 = [] then none
    else
      let cr := pCents dr.2
      some ('$' :: dr.1 ++ cr.1, cr.2)
  | _ => none

/-- The dash class `[-–]` of the range group. -/
def isRangeDash (c : Char) : Bool := c = '-' || c = '–'

/-- Optional range group `(?:\s*[-–]\s*\$[\d,]+(?:\.\d{2})?)?`: consume it when
it matches in full, else consume nothing. -/
def pRange (s : Str) : Str × Str :=
  let w1 := pRun isWsChar s
  match w1.2 with
  | d :: r2 =>
    if isRangeDash d then
      let w2 := pRun isWsChar r2
      match pDollarAmount w2.2 with
      | some mr => (w1.1 ++ d :: w2.1 ++ mr.1, mr.2)
      | none => ([], s)
    else ([], s)
  | [] => ([], s)

/-- The period units of the pattern, in the regex alternation order. -/
def perUnits : List Str :=
  ["hour", "hr", "year", "yr", "month", "mo", "week", "wk"].map String.data

/-- Optional period group `(?:\s*(?:per|\/)\s*(?:hour|hr|year|yr|month|mo|week|wk))?`. -/
def pPer (s : Str) : Str × Str :=
  let w1 := pRun isWsChar s
  let sep : Option Str :=
    if ("per".data).isPrefixOf w1.2 then some ("per".data)
    else
      match w1.2 with
      | '/' :: _ => some ['/']
      | _ => none
  match sep with
  | some sp =>
    let r2 := w1.2.drop sp.length
    let w2 := pRun isWsChar r2
    match perUnits.find? (fun u => u.isPrefixOf w2.2) with
    | some u => (w1.1 ++ sp ++ w2.1 ++ u, w2.2.drop u.length)
    | none => ([], s)
  | none => ([], s)

/-- A full match of the dollar pattern (line 429) at the front of `s`:
amount, optional range part, optional per-period part. -/
def matchDollar (s : Str) : Option Str :=
  match pDollarAmount s with
  | some mr =>
    let rg := pRange mr.2
    let pp := pPer rg.2
    some (mr.1 ++ rg.1 ++ pp.1)
  | none => none

/-- Helper for `dollarScan`: left-to-right non-overlapping scan; `skip` counts
characters still covered by the previous match. -/
def dollarScanAux : ℕ → Str → List Str
  | _, [] => []
  | 0, t@(_ :: rest) =>
    match matchDollar t with
    | some m => m :: dollarScanAux (m.length - 1) rest
    | none => dollarScanAux 0 rest
  | k + 1, _ :: rest => dollarScanAux k rest

/-- `re.findall(dollar_pattern, text)` (lines 429-430): the non-overlapping
left-to-right matches of the dollar-amount pattern. -/
def dollarScan (text : Str) : List Str := dollarScanAux 0 text

/-- Whether `f` matches at some position of `s` (Python `re.search`). -/
def searchAt (f : Str → Bool) : Str → Bool
  | [] => f []
  | t@(_ :: rest) => f t || searchAt f rest

/-- Match of `\d+k\s*[-–]\s*\d+k` (e.g. `50k-60k`) at the front. -/
def p1At (s : Str) : Bool :=
  let d1 := pRun Char.isDigit s
  if d1.1 = [] then false
  else
    match d1.2 with
    | 'k' :: r2 =>
      let w1 := pRun isWsChar r2
      match w1.2 with
      | d :: r3 =>
        if isRangeDash d then
          let w2 := pRun isWsChar r3
          let d2 := pRun Char.isDigit w2.2
          if d2.1 = [] then false
          else
            match d2.2 with
            | 'k' :: _ => true
            | _ => false
        else false
      | [] => false
    | _ => false

/-- Match of `\d{2,3},\d{3}` (e.g. `50,000`) at the front: the regex engine
tries three leading digits first, then backtracks to two. -/
def p2At : Str → Bool
  | a :: b :: c :: rest =>
    (a.isDigit && b.isDigit && c.isDigit &&
      match rest with
      | ',' :: x :: y :: z :: _ => x.isDigit && y.isDigit && z.isDigit
      | _ => false) ||
    (a.isDigit && b.isDigit && c = ',' &&
      match rest with
      | x :: y :: z :: _ => x.isDigit && y.isDigit && z.isDigit
      | _ => false)
  | _ => false

/-- The keyword alternation of the third salary pattern. -/
def salaryKeywords : List Str :=
  ["salary", "pay", "hourly", "rate", "compensation"].map String.data

/-- Match of `(?:salary|pay|hourly|rate|compensation).*?\d+` at the front:
a keyword followed by a digit with no newline in between (`.` does not match
newlines). -/
def p3At (s : Str) : Bool :=
  salaryKeywords.any (fun k =>
    k.isPrefixOf s &&
      ((s.drop k.length).takeWhile (fun c => !(c = '\n'))).any Char.isDigit)

/-- The `salary_patterns` loop (lines 436-443): 5 points for each of the three
patterns that occurs somewhere in the text.  The searches are run on the
lower-cased text, modelling `re.IGNORECASE` with the all-lowercase patterns. -/
def salaryPatternBoost (text : Str) : ℚ :=
  (if searchAt p1At (lowerStr text) then 5 else 0) +
    (if searchAt p2At (lowerStr text) then 5 else 0) +
    (if searchAt p3At (lowerStr text) then 5 else 0)

/-- The compensation-query guard words of line 427. -/
def compQueryWords : List Str :=
  ["compensation", "salary", "pay", "wage"].map String.data

/-- The compensation/salary special-pattern boost (lines 427-443): when the
original query mentions compensation, add 10 per dollar-pattern match (also
recording the matched strings) plus the salary-pattern bonuses. -/
def domainBoost (ow : List Str) (text : Str) : ℚ × List Str :=
  if compQueryWords.any (fun w => decide (w ∈ ow)) then
    (((dollarScan text).length : ℚ) * 10 + salaryPatternBoost text, dollarScan text)
  else (0, [])

/-- The occurrence positions of all original query terms in the chunk text
(lines 452-455). -/
def proximityPositions (ow : List Str) (textL : Str) : List ℕ :=
  (ow.map (fun w => occurrencePositions w textL)).flatten

/-- The adjacent-gap check of lines 456-461 on a sorted position list:
some adjacent pair is less than 50 characters apart. -/
def hasClosePair : List ℕ → Bool
  | a :: b :: rest => decide (b - a < 50) || hasClosePair (b :: rest)
  | _ => false

/-- The phrase/proximity multiplier (lines 445-461): with more than one
original term, 3 when the whole lower-cased query occurs in the text, else
3/2 when two collected term positions are within 50 characters, else 1. -/
def proximityFactor (queryL : Str) (ow : List Str) (textL : Str) : ℚ :=
  if 1 < ow.length then
    if strContains textL queryL then 3
    else if hasClosePair
        ((proximityPositions ow textL).mergeSort (fun a b => decide (a ≤ b))) then
      3 / 2
    else 1
  else 1

/-- The per-chunk score and match list of `simple_search` (lines 394-461),
computed on the lower-cased chunk text `textL`. -/
def scoreChunk (queryL : Str) (qw ow : List Str) (textL : Str) : ℚ × List Str :=
  let tWords := setOf (pyFindallWords textL)
  let base := chunkTermScore qw ow tWords textL + (domainBoost ow textL).1
  (base * proximityFactor queryL ow textL,
    chunkTermMatches qw tWords ++ (domainBoost ow textL).2)

/-- One ranked result of `simple_search`. -/
structure SearchResult where
  chunk_id : String
  doc_id : String
  doc_name : String
  text : Str
  score : ℚ
  matchedTerms : List Str
  metadata : List (String × String)
deriving DecidableEq

/-- `simple_search(query, top_k=5)` (lines 372-477) over a given store: score
every chunk, keep those with positive score, sort by score descending
(Python's sort is stable; `List.mergeSort` with the reflexive-total relation
`b.score ≤ a.score` is the same stable descending order), return the top
`top_k`. -/
def simple_search (query : Str) (top_k : ℕ) (store : Store) : List SearchResult :=
  if store.isEmpty then []
  else
    let query_words := expand_query_with_synonyms query
    let original_words := originalWords query
    let results := store.filterMap (fun p =>
      let textL := lowerStr p.2.text
      let sm := scoreChunk (lowerStr query) query_words original_words textL
      if 0 < sm.1 then
        some { chunk_id := p.1, doc_id := p.2.doc_id, doc_name := p.2.doc_name,
               text := p.2.text, score := sm.1, matchedTerms := sm.2.take 10,
               metadata := p.2.metadata }
      else none)
    (results.mergeSort (fun a b => decide (b.score ≤ a.score))).take top_k

/-! ### Context assembler (`get_context_for_query`, lines 509-544) -/

/-- The source label `f"[From: {doc_name}]\n"` prefixed to each chunk. -/
def labelFor (doc_name : String) : Str :=
  "[From: ".data ++ doc_name.data ++ "]\n".data

/-- The separator line joining context parts. -/
def contextSep : Str := "\n\n---\n\n".data

/-- Python `"\n\n---\n\n".join(parts)`. -/
def sepJoin : List Str → Str
  | [] => []
  | [x] => x
  | x :: rest => x ++ contextSep ++ sepJoin rest

/-- The ellipsis marker appended to a truncated chunk. -/
def ellipsisMark : Str := "...".data

/-- The accumulation loop of `get_context_for_query` (lines 526-542): running
totals are integers (`remaining` can be negative in Python). -/
def contextLoop (max_chars : ℤ) : List SearchResult → ℤ → List Str
  | [], _ => []
  | r :: rest, total =>
    if max_chars < total + (r.text.length : ℤ) then
      let remaining := max_chars - total
      if 100 < remaining then
        let t := r.text.take remaining.toNat ++ ellipsisMark
        (labelFor r.doc_name ++ t) :: contextLoop max_chars rest (total + (t.length : ℤ))
      else []
    else
      (labelFor r.doc_name ++ r.text) :: contextLoop max_chars rest (total + (r.text.length : ℤ))

/-- The pure context-assembly part of `get_context_for_query(query, max_chunks,
max_chars)`: the retrieval step (`semantic_search_with_gemini`, which may fall
back to `random.sample` and is therefore not a function of the store alone) is
factored out, and the already-ranked results are passed in. -/
def assembleContext (results : List SearchResult) (max_chars : ℤ) : Str :=
  if results.isEmpty then [] else sepJoin (contextLoop max_chars results 0)

/-! ### Derived predicates and concrete instances used in the statements -/

/-- `next` starts with the last `min ov (word length of prev)` words of `prev`:
the overlap-seeding guarantee of the chunker. -/
def overlapShared (ov : ℕ) (prev next : Str) : Prop :=
  (splitWs next).take (min ov (splitWs prev).length) =
    (splitWs prev).drop ((splitWs prev).length - min ov (splitWs prev).length)

/-- Two occurrences of two distinct original query terms lie within 50
characters of each other in the chunk text. -/
def closeDiffPair (ow : List Str) (textL : Str) : Prop :=
  ∃ w1 ∈ ow, ∃ w2 ∈ ow, w1 ≠ w2 ∧
    ∃ p ∈ occurrencePositions w1 textL, ∃ q ∈ occurrencePositions w2 textL,
      p < q + 50 ∧ q < p + 50

instance decCloseDiffPair (ow : List Str) (textL : Str) :
    Decidable (closeDiffPair ow textL) := by
  unfold closeDiffPair
  exact inferInstance

/-- The invariant carried through the sentence-packing loop: the closed chunks
satisfy the overlap chain, the chunk under construction is only empty before
anything was processed, and it continues the chain from the last closed
chunk. -/
def LoopInv (ov : ℕ) (st : List Str × List Str) : Prop :=
  st.1.Chain' (overlapShared ov) ∧ (st.2 = [] → st.1 = []) ∧
  (∀ h : st.1 ≠ [], st.2 ≠ [] →
    overlapShared ov (st.1.getLast h) (joinSp st.2))

/-- A store with one chunk, used to instantiate the general theorems. -/
def witnessStore : Store :=
  [("doc1_0",
    { doc_id := "doc1", doc_name := "handbook.txt", chunk_index := 0,
      text := "Benefits include health insurance.".data, metadata := [] })]

/-- A retrieval result whose chunk text is 200 characters long. -/
def witnessResult200 : SearchResult :=
  { chunk_id := "doc1_0", doc_id := "doc1", doc_name := "report.txt",
    text := List.replicate 200 'a', score := 0, matchedTerms := [],
    metadata := [] }

/-- A stand-in content hash function (the theorems hold for every function of
the raw content, as `hashlib.md5` is). -/
def witnessHash : Str → String := fun _ => "abc123"

/-- A stand-in extraction function modelling the plain-text path
(decode the bytes, ignoring the extension). -/
def witnessExtract : Str → String → Str := fun content _ => content

/-- A 30-sentence, 600-word text: long enough that the plain-text extraction
path chunks it into more than one chunk. -/
def counterText : Str :=
  joinSp (List.replicate 30 ("a a a a a a a a a a a a a a a a a a a b.".data))

/-- An extraction function with the extension-dependence of
`extract_text_from_file`: plain-text files decode to their content, while a
`.pdf` upload of the same (non-PDF) bytes yields a short bracketed error or
placeholder string (the code's behavior both when pypdf is missing and when
it fails to parse the bytes). -/
def counterExtract : Str → String → Str :=
  fun content ext =>
    if ext = ".txt" then content
    else "[Error extracting text: unsupported format]".data

/-! ### Claim C1 -/

/-- Claim C1 states that chunking an empty or whitespace-only text returns an
empty sequence, not a sequence containing one empty chunk.  The code does the
opposite: `re.split` on the empty normalized text returns `['']`, the loop
packs that empty sentence into `current_chunk`, and the trailing
`if current_chunk` append stores `' '.join(['']) = ''`, so `chunk_text`
returns `['']` — one empty chunk — for every chunk size and overlap.  The
dead guards `return [text] if text else []` show the intended behavior. -/
theorem chunk_text_empty_input_returns_one_empty_chunk :
    (∀ cs ov : ℕ, chunk_text [] cs ov = [[]]) ∧
    chunk_text (" \t ".data) 250 50 = [[]] ∧ ([[]] : List Str) ≠ [] := by
  refine ⟨fun cs ov => ?_, by decide, by decide⟩
  simp [chunk_text, normWs, splitWs, splitRuns, splitRunsAux, joinSp,
    splitSentences, sentAux, chunkLoop]

/-! ### Claim C9 -/

/-- Claim C9: when the persisted chunk-mapping file exists but cannot be
parsed (`some none`), `load_all_chunks` returns the empty mapping, and the
read operations (`simple_search`, `get_all_documents`,
`has_uploaded_documents`) behave exactly as on an empty store. -/
theorem load_all_chunks_corrupt_file_empty_store :
    load_all_chunks (some none) = [] ∧
    (∀ q : Str, ∀ k : ℕ, simple_search q k (load_all_chunks (some none)) = []) ∧
    get_all_documents (load_all_chunks (some none)) = [] ∧
    has_uploaded_documents (load_all_chunks (some none)) = false :=
  ⟨rfl, fun _ _ => rfl, rfl, rfl⟩

/-! ### Claims C8 and C3 (context assembly) -/

/-- Once the running total exceeds the budget, the assembly loop adds no
further chunk: the next iteration computes a negative remaining budget and
stops. -/
theorem contextLoop_stop (max_chars : ℤ) (rs : List SearchResult) (total : ℤ)
    (h : max_chars < total) : contextLoop max_chars rs total = [] := by
  cases rs with
  | nil => rfl
  | cons r rest =>
    have h1 : max_chars < total + (r.text.length : ℤ) := by
      have : (0 : ℤ) ≤ (r.text.length : ℤ) := Int.natCast_nonneg _
      omega
    have h2 : ¬ (100 : ℤ) < max_chars - total := by omega
    simp only [contextLoop, if_pos h1, if_neg h2]

/-- Claim C8: the context-assembly loop adds a chunk whole while it fits the
character budget; at the first chunk that would overflow, it either includes
a truncated prefix suffixed with the ellipsis marker and stops (when more
than 100 characters of budget remain) or stops before that chunk. -/
theorem assembleContext_budget (max_chars : ℤ) (r : SearchResult)
    (rs : List SearchResult) (total : ℤ) :
    contextLoop max_chars (r :: rs) total =
      if max_chars < total + (r.text.length : ℤ) then
        if 100 < max_chars - total then
          [labelFor r.doc_name ++ (r.text.take (max_chars - total).toNat ++ ellipsisMark)]
        else []
      else
        (labelFor r.doc_name ++ r.text) ::
          contextLoop max_chars rs (total + (r.text.length : ℤ)) := by
  by_cases h1 : max_chars < total + (r.text.length : ℤ)
  · rw [if_pos h1]
    by_cases h2 : (100 : ℤ) < max_chars - total
    · rw [if_pos h2]
      simp only [contextLoop, if_pos h1, if_pos h2]
      congr 1
      apply contextLoop_stop
      have hlt : (max_chars - total).toNat < r.text.length := by omega
      have hlen : (r.text.take (max_chars - total).toNat ++ ellipsisMark).length
          = (max_chars - total).toNat + 3 := by
        simp [List.length_take, ellipsisMark]
        omega
      rw [hlen]
      omega
    · rw [if_neg h2]
      simp only [contextLoop, if_pos h1, if_neg h2]
  · rw [if_neg h1]
    simp only [contextLoop, if_neg h1]

/-- Claim C3: with `maxChars = 50` and a single retrieved chunk of 200
characters, the assembled context is the empty string (the 50-character
remaining budget is not above the 100-character truncation threshold, so the
chunk is dropped), which in particular is within the claimed length bound and
is a (trivial) prefix of the chunk's text. -/
theorem assembleContext_single_chunk_small_budget (r : SearchResult)
    (h : r.text.length = 200) :
    assembleContext [r] 50 = [] ∧
    (assembleContext [r] 50).length ≤
      50 + (labelFor r.doc_name).length + ellipsisMark.length ∧
    assembleContext [r] 50 <+: r.text := by
  have hmain : assembleContext [r] 50 = [] := by
    have h1 : (50 : ℤ) < 0 + (r.text.length : ℤ) := by rw [h]; omega
    have h2 : ¬ (100 : ℤ) < 50 - 0 := by omega
    simp only [assembleContext, List.isEmpty_cons, Bool.false_eq_true,
      if_false, contextLoop, if_pos h1, if_neg h2, sepJoin]
  refine ⟨hmain, ?_, ?_⟩
  · rw [hmain]; simp
  · rw [hmain]; exact List.nil_prefix

/-- Witness for claim C3 at a concrete 200-character chunk. -/
theorem assembleContext_single_chunk_small_budget_witness :
    assembleContext [witnessResult200] 50 = [] ∧
    (assembleContext [witnessResult200] 50).length ≤
      50 + (labelFor witnessResult200.doc_name).length + ellipsisMark.length ∧
    assembleContext [witnessResult200] 50 <+: witnessResult200.text :=
  assembleContext_single_chunk_small_budget witnessResult200 (by decide)

/-! ### Set-model lemmas -/

theorem mem_insertIfAbsent {α : Type} [DecidableEq α] (acc : List α) (a w : α) :
    w ∈ insertIfAbsent acc a ↔ w ∈ acc ∨ w = a := by
  unfold insertIfAbsent
  by_cases h : a ∈ acc
  · rw [if_pos h]
    constructor
    · exact Or.inl
    · rintro (hw | rfl)
      · exact hw
      · exact h
  · rw [if_neg h]
    simp

theorem mem_foldl_insertIfAbsent {α : Type} [DecidableEq α] (l : List α) :
    ∀ (acc : List α) (w : α), w ∈ l.foldl insertIfAbsent acc ↔ w ∈ acc ∨ w ∈ l := by
  induction l with
  | nil => intro acc w; simp
  | cons a t ih =>
    intro acc w
    rw [List.foldl_cons, ih, mem_insertIfAbsent]
    constructor
    · rintro ((hw | rfl) | hw)
      · exact Or.inl hw
      · exact Or.inr (List.mem_cons_self _ _)
      · exact Or.inr (List.mem_cons_of_mem _ hw)
    · rintro (hw | hw)
      · exact Or.inl (Or.inl hw)
      · rcases List.mem_cons.mp hw with rfl | hw
        · exact Or.inl (Or.inr rfl)
        · exact Or.inr hw

theorem mem_setOf {α : Type} [DecidableEq α] (l : List α) (w : α) :
    w ∈ setOf l ↔ w ∈ l := by
  unfold setOf
  rw [mem_foldl_insertIfAbsent]
  simp

/-! ### Claim C10 -/

theorem originalWords_all_stop (query : Str)
    (h : ∀ w ∈ pyFindallWords (lowerStr query), w ∈ STOPWORDS) :
    originalWords query = [] := by
  unfold originalWords
  rw [List.filter_eq_nil_iff]
  intro w hw
  have := h w ((mem_setOf _ _).mp hw)
  simp [this]

/-- Claim C10: a query whose word tokens are all stopwords (e.g. `"show me
the"`) yields empty original and expanded term sets, every chunk scores zero,
and `simple_search` returns no results regardless of the store's contents. -/
theorem simple_search_all_stopwords (query : Str) (top_k : ℕ) (store : Store)
    (h : ∀ w ∈ pyFindallWords (lowerStr query), w ∈ STOPWORDS) :
    simple_search query top_k store = [] := by
  have how : originalWords query = [] := originalWords_all_stop query h
  have hqw : expand_query_with_synonyms query = [] := by
    unfold expand_query_with_synonyms
    rw [how]
    rfl
  unfold simple_search
  by_cases hs : store.isEmpty
  · rw [if_pos hs]
  · rw [if_neg hs]
    have hscore : ∀ textL : Str,
        (scoreChunk (lowerStr query) (expand_query_with_synonyms query)
          (originalWords query) textL).1 = 0 := by
      intro textL
      rw [how, hqw]
      simp [scoreChunk, chunkTermScore, domainBoost, proximityFactor, compQueryWords]
    simp only [hscore, lt_self_iff_false, if_false]
    rw [List.filterMap_eq_nil_iff.mpr (fun a _ => rfl)]
    simp

/-- Witness for claim C10: the all-stopword query `"show me the"` against a
non-empty store returns no results. -/
theorem simple_search_all_stopwords_witness :
    simple_search ("show me the".data) 5 witnessStore = [] :=
  simple_search_all_stopwords ("show me the".data) 5 witnessStore (by decide)

/-! ### Claim C7 -/

theorem delete_document_no_chunk_left (docId : String) (store : Store) :
    ∀ p ∈ (delete_document docId store).2, p.2.doc_id ≠ docId := by
  intro p hp heq
  unfold delete_document at hp
  simp only [List.mem_filter] at hp
  obtain ⟨hpst, hpb⟩ := hp
  have hmem : p.1 ∈ (store.filter (fun q => decide (q.2.doc_id = docId))).map Prod.fst := by
    refine List.mem_map.mpr ⟨p, ?_, rfl⟩
    exact List.mem_filter.mpr ⟨hpst, by simp [heq]⟩
  rw [Bool.not_eq_true', ← Bool.not_eq_true, List.elem_iff] at hpb
  exact hpb hmem

theorem simple_search_result_from_store (q : Str) (k : ℕ) (store : Store)
    (r : SearchResult) (hr : r ∈ simple_search q k store) :
    ∃ p ∈ store, r.doc_id = p.2.doc_id := by
  unfold simple_search at hr
  by_cases hs : store.isEmpty
  · rw [if_pos hs] at hr
    exact absurd hr (List.not_mem_nil r)
  · rw [if_neg hs] at hr
    have hr2 := ((List.mergeSort_perm _ _).mem_iff).mp
      (List.Sublist.mem hr (List.take_sublist _ _))
    obtain ⟨p, hpst, hpe⟩ := List.mem_filterMap.mp hr2
    by_cases hpos : 0 < (scoreChunk (lowerStr q) (expand_query_with_synonyms q)
        (originalWords q) (lowerStr p.2.text)).1
    · refine ⟨p, hpst, ?_⟩
      simp only [if_pos hpos] at hpe
      cases hpe
      rfl
    · simp only [if_neg hpos] at hpe
      cases hpe

theorem groupStep_ids (acc : List (String × DocSummary)) (p : String × ChunkRec)
    (pr : String × DocSummary) (hpr : pr ∈ groupStep acc p) :
    pr.2.id ∈ acc.map (fun q => q.2.id) ∨ pr.2.id = p.2.doc_id := by
  unfold groupStep at hpr
  obtain ⟨qr, hqr, rfl⟩ := List.mem_map.mp hpr
  by_cases hany : acc.any (fun q => decide (q.1 = p.2.doc_id))
  · rw [if_pos hany] at hqr
    by_cases hq : qr.1 = p.2.doc_id
    · rw [if_pos hq]
      exact Or.inl (List.mem_map.mpr ⟨qr, hqr, rfl⟩)
    · rw [if_neg hq]
      exact Or.inl (List.mem_map.mpr ⟨qr, hqr, rfl⟩)
  · rw [if_neg hany] at hqr
    rcases List.mem_append.mp hqr with hq | hq
    · by_cases hq1 : qr.1 = p.2.doc_id
      · rw [if_pos hq1]
        exact Or.inl (List.mem_map.mpr ⟨qr, hq, rfl⟩)
      · rw [if_neg hq1]
        exact Or.inl (List.mem_map.mpr ⟨qr, hq, rfl⟩)
    · rcases List.mem_singleton.mp hq with rfl
      simp

theorem groupFold_ids (l : List (String × ChunkRec)) :
    ∀ (acc : List (String × DocSummary)) (pr : String × DocSummary),
      pr ∈ l.foldl groupStep acc →
      pr.2.id ∈ acc.map (fun q => q.2.id) ∨ pr.2.id ∈ l.map (fun p => p.2.doc_id) := by
  induction l with
  | nil => intro acc pr h; exact Or.inl (List.mem_map.mpr ⟨pr, h, rfl⟩)
  | cons p t ih =>
    intro acc pr h
    rw [List.foldl_cons] at h
    rcases ih (groupStep acc p) pr h with hid | hid
    · obtain ⟨qr, hqr, heq⟩ := List.mem_map.mp hid
      rcases groupStep_ids acc p qr hqr with hin | hin
      · exact Or.inl (heq ▸ hin)
      · exact Or.inr (by rw [← heq, hin]; exact List.mem_map.mpr ⟨p, List.mem_cons_self _ _, rfl⟩)
    · rw [List.map_cons]
      exact Or.inr (List.mem_cons_of_mem _ hid)

theorem get_all_documents_ids (store : Store) (d : DocSummary)
    (hd : d ∈ get_all_documents store) : ∃ p ∈ store, d.id = p.2.doc_id := by
  unfold get_all_documents at hd
  obtain ⟨pr, hpr, rfl⟩ := List.mem_map.mp hd
  rcases groupFold_ids store [] pr hpr with h | h
  · simp at h
  · obtain ⟨p, hp, he⟩ := List.mem_map.mp h
    exact ⟨p, hp, he.symm⟩

/-- Claim C7: after `delete_document(docId)`, no search result and no listed
document carries that document id, and the returned flag is true exactly when
some chunk of that document was present. -/
theorem delete_document_completeness (docId : String) (store : Store)
    (q : Str) (k : ℕ) :
    (simple_search q k (delete_document docId store).2).filter
        (fun r => decide (r.doc_id = docId)) = [] ∧
    (get_all_documents (delete_document docId store).2).filter
        (fun d => decide (d.id = docId)) = [] ∧
    (delete_document docId store).1 =
      store.any (fun p => decide (p.2.doc_id = docId)) := by
  refine ⟨?_, ?_, ?_⟩
  · rw [List.filter_eq_nil_iff]
    intro r hr
    obtain ⟨p, hpst, hpe⟩ := simple_search_result_from_store q k _ r hr
    have := delete_document_no_chunk_left docId store p hpst
    simp [hpe, this]
  · rw [List.filter_eq_nil_iff]
    intro d hd
    obtain ⟨p, hpst, hpe⟩ := get_all_documents_ids _ d hd
    have := delete_document_no_chunk_left docId store p hpst
    simp [hpe, this]
  · unfold delete_document
    rw [Bool.eq_iff_iff]
    simp only [decide_eq_true_eq, List.length_map, List.any_eq_true]
    rw [List.length_pos, Ne, List.filter_eq_nil_iff]
    push_neg
    simp

/-! ### Claim C4 -/

/-- Claim C4: the per-term contributions of the scoring loop.  A non-stopword
expanded term found verbatim in the chunk's token set contributes its
occurrence count times `baseWeight × (1 + len/10)` with `baseWeight` 3 for
original terms and 1 for expansion-only terms, and is recorded in the match
list; a term longer than 3 characters with no exact match but with substring
containment (in either direction) against some chunk token contributes 1.5 if
original, else 0.5, and a `word~token` fuzzy marker is recorded.  The chunk's
term-overlap score is the sum of these contributions over the expanded term
list. -/
theorem simple_search_term_weights (ow tWords : List Str) (textL : Str)
    (w : Str) (hstop : w ∉ STOPWORDS) :
    (∀ qrest : List Str, chunkTermScore (w :: qrest) ow tWords textL =
      termContribution ow tWords textL w + chunkTermScore qrest ow tWords textL) ∧
    (w ∈ tWords →
      termContribution ow tWords textL w =
        (pyCount w textL : ℚ) * ((if w ∈ ow then 3 else 1) * (1 + (w.length : ℚ) / 10)) ∧
      termMark tWords w = [w]) ∧
    (w ∉ tWords → 3 < w.length → (∃ t ∈ tWords, fuzzyHit w t = true) →
      termContribution ow tWords textL w = (if w ∈ ow then 3 / 2 else 1 / 2) ∧
      ∃ t ∈ tWords, fuzzyHit w t = true ∧ termMark tWords w = [w ++ '~' :: t]) := by
  refine ⟨?_, ?_, ?_⟩
  · intro qrest
    simp [chunkTermScore]
  · intro hmem
    unfold termContribution termMark termWeight
    rw [if_neg hstop, if_neg hstop, if_pos hmem, if_pos hmem]
    exact ⟨rfl, rfl⟩
  · intro hnot hlen hex
    have hsome : (tWords.find? (fun t => fuzzyHit w t)).isSome := by
      rw [List.find?_isSome]
      exact hex
    obtain ⟨t, hfind⟩ := Option.isSome_iff_exists.mp hsome
    unfold termContribution termMark
    rw [if_neg hstop, if_neg hstop, if_neg hnot, if_neg hnot, if_pos hlen,
      if_pos hlen, hfind]
    exact ⟨rfl, t, List.mem_of_find?_eq_some hfind, List.find?_some hfind, rfl⟩

/-- Witness for claim C4: an exact-match contribution (original term `salary`
in the token set) and a fuzzy-match contribution (`analysts` against the
token `analyst`). -/
theorem simple_search_term_weights_witness :
    (termContribution ["salary".data] ["salary".data, "analyst".data]
        ("salary and salary".data) ("salary".data) =
      (pyCount ("salary".data) ("salary and salary".data) : ℚ) *
        ((if ("salary".data) ∈ [("salary".data)] then 3 else 1) *
          (1 + (("salary".data).length : ℚ) / 10)) ∧
      termMark ["salary".data, "analyst".data] ("salary".data) = [("salary".data)]) ∧
    (termContribution ["salary".data] ["analyst".data] ("the analyst".data)
        ("analysts".data) =
      (if ("analysts".data) ∈ [("salary".data)] then 3 / 2 else 1 / 2) ∧
      ∃ t ∈ [("analyst".data)], fuzzyHit ("analysts".data) t = true ∧
        termMark ["analyst".data] ("analysts".data) = [("analysts".data) ++ '~' :: t]) :=
  ⟨(simple_search_term_weights ["salary".data] ["salary".data, "analyst".data]
      ("salary and salary".data) ("salary".data) (by decide)).2.1 (by decide),
   (simple_search_term_weights ["salary".data] ["analyst".data]
      ("the analyst".data) ("analysts".data) (by decide)).2.2
      (by decide) (by decide) (by decide)⟩

/-! ### Claim C2 -/

theorem hasClosePair_eq_false_iff (l : List ℕ) :
    hasClosePair l = false ↔ l.Chain' (fun a b => 50 ≤ b - a) := by
  induction l with
  | nil => simp [hasClosePair]
  | cons a t ih =>
    cases t with
    | nil => simp [hasClosePair]
    | cons b rest =>
      rw [List.chain'_cons, ← ih]
      rw [show hasClosePair (a :: b :: rest) =
        (decide (b - a < 50) || hasClosePair (b :: rest)) from rfl]
      rw [Bool.or_eq_false_iff, decide_eq_false_iff_not]
      constructor
      · rintro ⟨hd, ht⟩
        exact ⟨by omega, ht⟩
      · rintro ⟨hd, ht⟩
        exact ⟨by omega, ht⟩

theorem chain'_and {α : Type} {R Q : α → α → Prop} :
    ∀ l : List α, l.Chain' R → l.Chain' Q → l.Chain' (fun a b => R a b ∧ Q a b) := by
  intro l
  induction l with
  | nil => intro _ _; simp
  | cons a t ih =>
    cases t with
    | nil => intro _ _; simp
    | cons b rest =>
      intro hR hQ
      rw [List.chain'_cons] at hR hQ ⊢
      exact ⟨⟨hR.1, hQ.1⟩, ih hR.2 hQ.2⟩

theorem sorted_positions_pairwise (P : List ℕ) :
    (P.mergeSort (fun a b => decide (a ≤ b))).Pairwise (· ≤ ·) := by
  have h := @List.sorted_mergeSort ℕ (fun a b : ℕ => decide (a ≤ b))
    (fun a b c h1 h2 => by
      simp only [decide_eq_true_eq] at *
      omega)
    (fun a b => by
      simp only [Bool.or_eq_true, decide_eq_true_eq]
      exact Nat.le_total a b) P
  exact h.imp (fun hab => by simpa using hab)

theorem mem_proximityPositions (ow : List Str) (textL : Str) (w : Str) (p : ℕ)
    (hw : w ∈ ow) (hp : p ∈ occurrencePositions w textL) :
    p ∈ proximityPositions ow textL := by
  unfold proximityPositions
  rw [List.mem_flatten]
  exact ⟨occurrencePositions w textL, List.mem_map.mpr ⟨w, hw, rfl⟩, hp⟩

theorem count_two_of_diff_terms (ow : List Str) (textL : Str) (w1 w2 : Str)
    (h1 : w1 ∈ ow) (h2 : w2 ∈ ow) (hne : w1 ≠ w2) (p : ℕ)
    (hp1 : p ∈ occurrencePositions w1 textL)
    (hp2 : p ∈ occurrencePositions w2 textL) :
    2 ≤ (proximityPositions ow textL).count p := by
  obtain ⟨u, v, rfl⟩ := List.append_of_mem h1
  have h2' : w2 ∈ u ∨ w2 ∈ v := by
    rcases List.mem_append.mp h2 with h | h
    · exact Or.inl h
    · rcases List.mem_cons.mp h with h | h
      · exact absurd h.symm hne
      · exact Or.inr h
  unfold proximityPositions
  rw [List.map_append, List.flatten_append, List.map_cons, List.flatten_cons,
    List.count_append, List.count_append]
  have hc1 : 0 < (occurrencePositions w1 textL).count p :=
    List.count_pos_iff.mpr hp1
  rcases h2' with h | h
  · have hc2 : 0 < ((u.map (fun w => occurrencePositions w textL)).flatten).count p := by
      apply List.count_pos_iff.mpr
      rw [List.mem_flatten]
      exact ⟨occurrencePositions w2 textL, List.mem_map.mpr ⟨w2, h, rfl⟩, hp2⟩
    omega
  · have hc2 : 0 < ((v.map (fun w => occurrencePositions w textL)).flatten).count p := by
      apply List.count_pos_iff.mpr
      rw [List.mem_flatten]
      exact ⟨occurrencePositions w2 textL, List.mem_map.mpr ⟨w2, h, rfl⟩, hp2⟩
    omega

theorem closeDiffPair_hasClosePair (ow : List Str) (textL : Str)
    (h : closeDiffPair ow textL) :
    hasClosePair ((proximityPositions ow textL).mergeSort
      (fun a b => decide (a ≤ b))) = true := by
  by_contra hfalse
  rw [Bool.not_eq_true] at hfalse
  have hpair_le := sorted_positions_pairwise (proximityPositions ow textL)
  have hgap := (hasClosePair_eq_false_iff _).mp hfalse
  have hchain : ((proximityPositions ow textL).mergeSort
      (fun a b => decide (a ≤ b))).Chain' (fun a b : ℕ => a + 50 ≤ b) :=
    List.Chain'.imp (fun a b hab => by
        obtain ⟨hab1, hab2⟩ := hab
        omega)
      (chain'_and _ hpair_le.chain' hgap)
  haveI : IsTrans ℕ (fun a b : ℕ => a + 50 ≤ b) :=
    ⟨fun a b c hab hbc => Nat.le_trans hab (Nat.le_trans (Nat.le_add_right b 50) hbc)⟩
  have hpair : ((proximityPositions ow textL).mergeSort
      (fun a b => decide (a ≤ b))).Pairwise (fun a b : ℕ => a + 50 ≤ b) :=
    List.chain'_iff_pairwise.mp hchain
  obtain ⟨w1, hw1, w2, hw2, hne, p, hp, q, hq, hlt1, hlt2⟩ := h
  have hperm := List.mergeSort_perm (proximityPositions ow textL)
    (fun a b => decide (a ≤ b))
  by_cases hpq : p = q
  · subst hpq
    have hcount : 2 ≤ (proximityPositions ow textL).count p :=
      count_two_of_diff_terms ow textL w1 w2 hw1 hw2 hne p hp hq
    have hdup := List.duplicate_iff_two_le_count.mpr
      (by rw [hperm.count_eq]; exact hcount)
    have hpp := List.Pairwise.sublist (List.duplicate_iff_sublist.mp hdup) hpair
    have := (List.pairwise_cons.mp hpp).1 p (List.mem_singleton_self p)
    omega
  · have hpS : p ∈ (proximityPositions ow textL).mergeSort
        (fun a b => decide (a ≤ b)) :=
      hperm.mem_iff.mpr (mem_proximityPositions ow textL w1 p hw1 hp)
    have hqS : q ∈ (proximityPositions ow textL).mergeSort
        (fun a b => decide (a ≤ b)) :=
      hperm.mem_iff.mpr (mem_proximityPositions ow textL w2 q hw2 hq)
    obtain ⟨i, hi, hip⟩ := List.mem_iff_getElem.mp hpS
    obtain ⟨j, hj, hjq⟩ := List.mem_iff_getElem.mp hqS
    have hij : i ≠ j := by
      intro he
      apply hpq
      subst he
      exact hip.symm.trans hjq
    rcases Nat.lt_or_ge i j with hlt | hge
    · have := List.pairwise_iff_getElem.mp hpair i j hi hj hlt
      rw [hip, hjq] at this
      omega
    · have hji : j < i := by omega
      have := List.pairwise_iff_getElem.mp hpair j i hj hi hji
      rw [hip, hjq] at this
      omega

/-- Claim C2: for a query with more than one original (post-stopword) term,
the phrase-proximity stage multiplies the chunk's accumulated score by 3 when
the whole lower-cased query occurs verbatim in the chunk text; otherwise, if
two occurrences of two distinct original terms lie within 50 characters of
each other, it multiplies the score by 1.5; the multiplier is applied at most
once (the final score is the pre-boost score times exactly one of 1, 1.5, 3). -/
theorem simple_search_phrase_proximity_boost (query : Str) (textL : Str)
    (h1 : 1 < (originalWords query).length) :
    (strContains textL (lowerStr query) = true →
      (scoreChunk (lowerStr query) (expand_query_with_synonyms query)
          (originalWords query) textL).1 =
        3 * (chunkTermScore (expand_query_with_synonyms query)
              (originalWords query) (setOf (pyFindallWords textL)) textL +
            (domainBoost (originalWords query) textL).1)) ∧
    (strContains textL (lowerStr query) = false →
      closeDiffPair (originalWords query) textL →
      (scoreChunk (lowerStr query) (expand_query_with_synonyms query)
          (originalWords query) textL).1 =
        3 / 2 * (chunkTermScore (expand_query_with_synonyms query)
              (originalWords query) (setOf (pyFindallWords textL)) textL +
            (domainBoost (originalWords query) textL).1)) ∧
    ((scoreChunk (lowerStr query) (expand_query_with_synonyms query)
          (originalWords query) textL).1 =
        (chunkTermScore (expand_query_with_synonyms query)
            (originalWords query) (setOf (pyFindallWords textL)) textL +
          (domainBoost (originalWords query) textL).1) ∨
      (scoreChunk (lowerStr query) (expand_query_with_synonyms query)
          (originalWords query) textL).1 =
        3 / 2 * (chunkTermScore (expand_query_with_synonyms query)
              (originalWords query) (setOf (pyFindallWords textL)) textL +
            (domainBoost (originalWords query) textL).1) ∨
      (scoreChunk (lowerStr query) (expand_query_with_synonyms query)
          (originalWords query) textL).1 =
        3 * (chunkTermScore (expand_query_with_synonyms query)
              (originalWords query) (setOf (pyFindallWords textL)) textL +
            (domainBoost (originalWords query) textL).1)) := by
  refine ⟨?_, ?_, ?_⟩
  · intro hphrase
    simp only [scoreChunk, proximityFactor, if_pos h1, hphrase, if_true]
    ring
  · intro hphrase hclose
    simp only [scoreChunk, proximityFactor, if_pos h1, hphrase,
      Bool.false_eq_true, if_false, closeDiffPair_hasClosePair _ _ hclose,
      if_true]
    ring
  · simp only [scoreChunk, proximityFactor, if_pos h1]
    by_cases hphrase : strContains textL (lowerStr query) = true
    · rw [if_pos hphrase]
      right; right; ring
    · rw [if_neg hphrase]
      by_cases hclosep : hasClosePair ((proximityPositions (originalWords query)
          textL).mergeSort (fun a b => decide (a ≤ b))) = true
      · rw [if_pos hclosep]
        right; left; ring
      · rw [if_neg hclosep]
        left; ring

/-- Witness for claim C2 at the query `"annual bonus"`: the ×3 branch on a
chunk containing the exact phrase, and the ×1.5 branch on a chunk containing
the two terms within 50 characters but not the phrase. -/
theorem simple_search_phrase_proximity_boost_witness :
    ((scoreChunk (lowerStr ("annual bonus".data))
        (expand_query_with_synonyms ("annual bonus".data))
        (originalWords ("annual bonus".data)) ("annual bonus plan".data)).1 =
      3 * (chunkTermScore (expand_query_with_synonyms ("annual bonus".data))
            (originalWords ("annual bonus".data))
            (setOf (pyFindallWords ("annual bonus plan".data)))
            ("annual bonus plan".data) +
          (domainBoost (originalWords ("annual bonus".data))
            ("annual bonus plan".data)).1)) ∧
    ((scoreChunk (lowerStr ("annual bonus".data))
        (expand_query_with_synonyms ("annual bonus".data))
        (originalWords ("annual bonus".data)) ("the bonus comes annual".data)).1 =
      3 / 2 * (chunkTermScore (expand_query_with_synonyms ("annual bonus".data))
            (originalWords ("annual bonus".data))
            (setOf (pyFindallWords ("the bonus comes annual".data)))
            ("the bonus comes annual".data) +
          (domainBoost (originalWords ("annual bonus".data))
            ("the bonus comes annual".data)).1)) :=
  ⟨(simple_search_phrase_proximity_boost ("annual bonus".data)
      ("annual bonus plan".data) (by decide)).1 (by decide),
   (simple_search_phrase_proximity_boost ("annual bonus".data)
      ("the bonus comes annual".data) (by decide)).2.1 (by decide) (by decide)⟩

/-! ### Claim C5 -/

theorem splitRunsAux_spec (p : Char → Bool) :
    ∀ (s acc : Str), (∀ c ∈ acc, p c = true) →
      ∀ w ∈ splitRunsAux p acc s, w ≠ [] ∧ ∀ c ∈ w, p c = true := by
  intro s
  induction s with
  | nil =>
    intro acc hacc w hw
    unfold splitRunsAux at hw
    by_cases h : acc = []
    · rw [if_pos h] at hw
      exact absurd hw (List.not_mem_nil w)
    · rw [if_neg h] at hw
      rcases List.mem_singleton.mp hw with rfl
      refine ⟨by simpa using h, ?_⟩
      intro c hc
      exact hacc c (List.mem_reverse.mp hc)
  | cons c rest ih =>
    intro acc hacc w hw
    unfold splitRunsAux at hw
    by_cases hp : p c = true
    · rw [if_pos hp] at hw
      refine ih (c :: acc) ?_ w hw
      intro x hx
      rcases List.mem_cons.mp hx with rfl | hx
      · exact hp
      · exact hacc x hx
    · rw [if_neg hp] at hw
      by_cases h : acc = []
      · rw [if_pos h] at hw
        exact ih [] (by simp) w hw
      · rw [if_neg h] at hw
        rcases List.mem_cons.mp hw with rfl | hw
        · refine ⟨by simpa using h, ?_⟩
          intro x hx
          exact hacc x (List.mem_reverse.mp hx)
        · exact ih [] (by simp) w hw

theorem splitWs_spec (s : Str) :
    ∀ w ∈ splitWs s, w ≠ [] ∧ ∀ c ∈ w, isWsChar c = false := by
  intro w hw
  have := splitRunsAux_spec (fun c => !(isWsChar c)) s [] (by simp) w hw
  refine ⟨this.1, ?_⟩
  intro c hc
  have h2 := this.2 c hc
  simpa using h2

theorem splitRunsAux_append_sep (p : Char → Bool) (sep : Char)
    (hsep : p sep = false) :
    ∀ (a acc b : Str),
      splitRunsAux p acc (a ++ sep :: b) = splitRunsAux p acc a ++ splitRuns p b := by
  intro a
  induction a with
  | nil =>
    intro acc b
    simp only [List.nil_append]
    unfold splitRunsAux
    rw [if_neg (by simp [hsep])]
    by_cases h : acc = []
    · rw [if_pos h, if_pos h, List.nil_append]
      rfl
    · rw [if_neg h, if_neg h]
      rfl
  | cons c a' ih =>
    intro acc b
    simp only [List.cons_append]
    unfold splitRunsAux
    by_cases hp : p c = true
    · rw [if_pos hp, if_pos hp, ih]
    · rw [if_neg hp, if_neg hp]
      by_cases h : acc = []
      · rw [if_pos h, if_pos h, ih]
      · rw [if_neg h, if_neg h, ih, List.cons_append]

theorem splitWs_append_space (a b : Str) :
    splitWs (a ++ ' ' :: b) = splitWs a ++ splitWs b :=
  splitRunsAux_append_sep (fun c => !(isWsChar c)) ' ' (by decide) a [] b

theorem joinSp_cons_cons (a b : Str) (t : List Str) :
    joinSp (a :: b :: t) = a ++ ' ' :: joinSp (b :: t) := rfl

theorem splitWs_joinSp (pieces : List Str) :
    splitWs (joinSp pieces) = (pieces.map splitWs).flatten := by
  induction pieces with
  | nil => rfl
  | cons a t ih =>
    cases t with
    | nil => simp [joinSp]
    | cons b t' =>
      rw [joinSp_cons_cons, splitWs_append_space, ih]
      simp

theorem splitRunsAux_all (p : Char → Bool) :
    ∀ (w acc : Str), (∀ c ∈ w, p c = true) → (acc ≠ [] ∨ w ≠ []) →
      splitRunsAux p acc w = [acc.reverse ++ w] := by
  intro w
  induction w with
  | nil =>
    intro acc _ hne
    rcases hne with h | h
    · unfold splitRunsAux
      rw [if_neg h, List.append_nil]
    · exact absurd rfl h
  | cons c w' ih =>
    intro acc hall hne
    unfold splitRunsAux
    rw [if_pos (hall c (List.mem_cons_self c w'))]
    rw [ih (c :: acc) (fun x hx => hall x (List.mem_cons_of_mem c hx))
      (Or.inl (by simp))]
    rw [List.reverse_cons, List.append_assoc]
    rfl

theorem splitWs_of_word (w : Str) (hne : w ≠ [])
    (hall : ∀ c ∈ w, isWsChar c = false) : splitWs w = [w] := by
  have := splitRunsAux_all (fun c => !(isWsChar c)) w []
    (fun c hc => by simp [hall c hc]) (Or.inr hne)
  simpa using this

theorem splitWs_joinSp_words (ws : List Str)
    (h : ∀ w ∈ ws, w ≠ [] ∧ ∀ c ∈ w, isWsChar c = false) :
    splitWs (joinSp ws) = ws := by
  rw [splitWs_joinSp]
  induction ws with
  | nil => rfl
  | cons a t ih =>
    rw [List.map_cons, List.flatten_cons,
      splitWs_of_word a (h a (List.mem_cons_self a t)).1
        (h a (List.mem_cons_self a t)).2,
      ih (fun w hw => h w (List.mem_cons_of_mem a hw))]
    rfl

theorem pyLastN_eq_drop_min (ov : ℕ) (hov : ov ≠ 0) {α : Type} (l : List α) :
    pyLastN ov l = l.drop (l.length - min ov l.length) := by
  unfold pyLastN
  rw [if_neg hov]
  congr 1
  omega

theorem pyLastN_length (ov : ℕ) (hov : ov ≠ 0) {α : Type} (l : List α) :
    (pyLastN ov l).length = min ov l.length := by
  rw [pyLastN_eq_drop_min ov hov, List.length_drop]
  omega

theorem overlapShared_seed (ov : ℕ) (hov : ov ≠ 0) (prev : Str)
    (rest : List Str) :
    overlapShared ov prev (joinSp (joinSp (pyLastN ov (splitWs prev)) :: rest)) := by
  unfold overlapShared
  have hwords : ∀ w ∈ pyLastN ov (splitWs prev),
      w ≠ [] ∧ ∀ c ∈ w, isWsChar c = false := by
    intro w hw
    refine splitWs_spec prev w ?_
    rw [pyLastN_eq_drop_min ov hov] at hw
    exact List.mem_of_mem_drop hw
  have hjoin : splitWs (joinSp (pyLastN ov (splitWs prev))) =
      pyLastN ov (splitWs prev) := splitWs_joinSp_words _ hwords
  rw [splitWs_joinSp, List.map_cons, List.flatten_cons, hjoin]
  have hlen : (pyLastN ov (splitWs prev)).length = min ov (splitWs prev).length :=
    pyLastN_length ov hov _
  rw [List.take_append_of_le_length (le_of_eq hlen.symm)]
  rw [List.take_of_length_le (le_of_eq hlen)]
  rw [← pyLastN_eq_drop_min ov hov]

theorem overlapShared_extend (ov : ℕ) (prev : Str) (cur : List Str) (s : Str)
    (h : overlapShared ov prev (joinSp cur)) :
    overlapShared ov prev (joinSp (cur ++ [s])) := by
  unfold overlapShared at h ⊢
  rw [splitWs_joinSp, List.map_append, List.flatten_append, ← splitWs_joinSp]
  have hk : min ov (splitWs prev).length ≤ (splitWs (joinSp cur)).length := by
    have := congrArg List.length h
    rw [List.length_take, List.length_drop] at this
    omega
  rw [List.take_append_of_le_length hk]
  exact h

theorem chunkLoop_ne (cs ov : ℕ) :
    ∀ (sentences chunks current : List Str) (count : ℕ),
      (chunks ≠ [] ∨ current ≠ [] ∨ sentences ≠ []) →
      ((chunkLoop cs ov sentences chunks current count).1 ≠ [] ∨
        (chunkLoop cs ov sentences chunks current count).2 ≠ []) := by
  intro sentences
  induction sentences with
  | nil =>
    intro chunks current count h
    rcases h with h | h | h
    · exact Or.inl h
    · exact Or.inr h
    · exact absurd rfl h
  | cons s rest ih =>
    intro chunks current count _
    simp only [chunkLoop]
    by_cases hfit : count + (splitWs s).length ≤ cs
    · rw [if_pos hfit]
      exact ih chunks (current ++ [s]) _ (Or.inr (Or.inl (by simp)))
    · rw [if_neg hfit]
      by_cases hcase : (if current = [] then chunks else chunks ++ [joinSp current]) ≠ [] ∧ 0 < ov
      · rw [if_pos hcase]
        exact ih _ _ _ (Or.inr (Or.inl (by simp)))
      · rw [if_neg hcase]
        exact ih _ _ _ (Or.inr (Or.inl (by simp)))

theorem chain'_concat {α : Type} {R : α → α → Prop} (l : List α) (x : α)
    (hl : l.Chain' R) (hlast : ∀ h : l ≠ [], R (l.getLast h) x) :
    (l ++ [x]).Chain' R := by
  rw [List.chain'_append]
  refine ⟨hl, List.chain'_singleton x, ?_⟩
  intro a ha y hy
  rcases List.mem_singleton.mp (by simpa using hy) with rfl
  by_cases hne : l = []
  · subst hne
    simp at ha
  · rw [List.getLast?_eq_getLast l hne] at ha
    rcases List.mem_singleton.mp (by simpa using ha) with rfl
    exact hlast hne

theorem getLastD_of_ne_nil {α : Type} (l : List α) (d : α) (h : l ≠ []) :
    l.getLastD d = l.getLast h := by
  rw [List.getLastD_eq_getLast?, List.getLast?_eq_getLast l h]
  rfl

theorem chunkLoop_chain (cs ov : ℕ) (hov : ov ≠ 0) :
    ∀ (sentences chunks current : List Str) (count : ℕ),
      LoopInv ov (chunks, current) →
      LoopInv ov (chunkLoop cs ov sentences chunks current count) := by
  intro sentences
  induction sentences with
  | nil =>
    intro chunks current count hinv
    exact hinv
  | cons s rest ih =>
    intro chunks current count hinv
    obtain ⟨h1, h2, h3⟩ := hinv
    by_cases hfit : count + (splitWs s).length ≤ cs
    · have heq : chunkLoop cs ov (s :: rest) chunks current count =
          chunkLoop cs ov rest chunks (current ++ [s])
            (count + (splitWs s).length) := by
        simp only [chunkLoop]
        rw [if_pos hfit]
      rw [heq]
      refine ih chunks (current ++ [s]) _ ⟨h1, fun hc => absurd hc (by simp), ?_⟩
      intro hch hcur
      by_cases hcurnil : current = []
      · exact absurd (h2 hcurnil) hch
      · exact overlapShared_extend ov _ current s (h3 hch hcurnil)
    · have hchain1 : (if current = [] then chunks
          else chunks ++ [joinSp current]).Chain' (overlapShared ov) := by
        by_cases hcurnil : current = []
        · rw [if_pos hcurnil]
          exact h1
        · rw [if_neg hcurnil]
          exact chain'_concat chunks (joinSp current) h1 (fun h => h3 h hcurnil)
      by_cases hcase : (if current = [] then chunks
          else chunks ++ [joinSp current]) ≠ [] ∧ 0 < ov
      · have heq : chunkLoop cs ov (s :: rest) chunks current count =
            chunkLoop cs ov rest
              (if current = [] then chunks else chunks ++ [joinSp current])
              [joinSp (pyLastN ov (splitWs ((if current = [] then chunks
                else chunks ++ [joinSp current]).getLastD []))), s]
              ((pyLastN ov (splitWs ((if current = [] then chunks
                else chunks ++ [joinSp current]).getLastD []))).length +
                (splitWs s).length) := by
          simp only [chunkLoop]
          rw [if_neg hfit, if_pos hcase]
        rw [heq]
        refine ih _ _ _ ⟨hchain1, fun hc => absurd hc (by simp), ?_⟩
        intro hch _
        rw [getLastD_of_ne_nil _ [] hcase.1]
        exact overlapShared_seed ov hov
          ((if current = [] then chunks else chunks ++ [joinSp current]).getLast
            hcase.1) [s]
      · have hnil : (if current = [] then chunks
            else chunks ++ [joinSp current]) = [] := by
          by_contra hcon
          exact hcase ⟨hcon, Nat.pos_of_ne_zero hov⟩
        have heq : chunkLoop cs ov (s :: rest) chunks current count =
            chunkLoop cs ov rest
              (if current = [] then chunks else chunks ++ [joinSp current])
              [s] ((splitWs s).length) := by
          simp only [chunkLoop]
          rw [if_neg hfit, if_neg hcase]
        rw [heq]
        refine ih _ _ _ ⟨by rw [hnil]; exact List.chain'_nil, fun _ => hnil, ?_⟩
        intro hch _
        exact absurd hnil hch

theorem chunk_text_chain (text : Str) :
    (chunk_text text 250 50).Chain' (overlapShared 50) := by
  unfold chunk_text
  by_cases hs : splitSentences (normWs text) = []
  · rw [if_pos hs]
    by_cases ht : normWs text = []
    · rw [if_pos ht]
      exact List.chain'_nil
    · rw [if_neg ht]
      exact List.chain'_singleton _
  · rw [if_neg hs]
    have hinv := chunkLoop_chain 250 50 (by omega)
      (splitSentences (normWs text)) [] [] 0
      ⟨List.chain'_nil, fun _ => rfl, fun h _ => absurd rfl h⟩
    have hne := chunkLoop_ne 250 50 (splitSentences (normWs text)) [] [] 0
      (Or.inr (Or.inr hs))
    have hchunks : (if (chunkLoop 250 50 (splitSentences (normWs text)) [] [] 0).2 = []
        then (chunkLoop 250 50 (splitSentences (normWs text)) [] [] 0).1
        else (chunkLoop 250 50 (splitSentences (normWs text)) [] [] 0).1 ++
          [joinSp (chunkLoop 250 50 (splitSentences (normWs text)) [] [] 0).2]).Chain'
        (overlapShared 50) := by
      by_cases hcur : (chunkLoop 250 50 (splitSentences (normWs text)) [] [] 0).2 = []
      · rw [if_pos hcur]
        exact hinv.1
      · rw [if_neg hcur]
        exact chain'_concat _ _ hinv.1 (fun h => hinv.2.2 h hcur)
    have hnonnil : (if (chunkLoop 250 50 (splitSentences (normWs text)) [] [] 0).2 = []
        then (chunkLoop 250 50 (splitSentences (normWs text)) [] [] 0).1
        else (chunkLoop 250 50 (splitSentences (normWs text)) [] [] 0).1 ++
          [joinSp (chunkLoop 250 50 (splitSentences (normWs text)) [] [] 0).2]) ≠ [] := by
      by_cases hcur : (chunkLoop 250 50 (splitSentences (normWs text)) [] [] 0).2 = []
      · rw [if_pos hcur]
        rcases hne with h | h
        · exact h
        · exact absurd hcur h
      · rw [if_neg hcur]
        exact List.append_ne_nil_of_right_ne_nil _ (by simp)
    rw [if_neg hnonnil]
    exact hchunks

/-- Claim C5: for every non-empty input text chunked with `overlap = 50`
(and the default 250-word target), every chunk after the first starts with
the last `min 50 (word length of predecessor)` words of its predecessor —
adjacent chunks share exactly that overlap seed. -/
theorem chunk_text_overlap_bound (text : Str) (_hne : text ≠ []) :
    (chunk_text text 250 50).Chain' (overlapShared 50) :=
  chunk_text_chain text

/-- Witness for claim C5 on a concrete non-empty text. -/
theorem chunk_text_overlap_bound_witness :
    (chunk_text ("a".data) 250 50).Chain' (overlapShared 50) :=
  chunk_text_overlap_bound ("a".data) (by decide)

/-! ### Claim C6 -/

theorem toDigitsCore_fuel (n : ℕ) : ∀ (f : ℕ) (ds : List Char), n < f →
    Nat.toDigitsCore 10 f n ds = Nat.toDigits 10 n ++ ds := by
  induction n using Nat.strong_induction_on with
  | _ n ih =>
    intro f ds hf
    cases f with
    | zero => omega
    | succ f =>
      rw [show Nat.toDigitsCore 10 (f + 1) n ds =
          (if n / 10 = 0 then Nat.digitChar (n % 10) :: ds
           else Nat.toDigitsCore 10 f (n / 10) (Nat.digitChar (n % 10) :: ds))
        from by simp [Nat.toDigitsCore]]
      rw [show Nat.toDigits 10 n =
          (if n / 10 = 0 then Nat.digitChar (n % 10) :: ([] : List Char)
           else Nat.toDigitsCore 10 n (n / 10) (Nat.digitChar (n % 10) :: []))
        from by simp [Nat.toDigits, Nat.toDigitsCore]]
      by_cases h0 : n / 10 = 0
      · rw [if_pos h0, if_pos h0]
        rfl
      · rw [if_neg h0, if_neg h0]
        have hpos : 0 < n := by
          by_contra hc
          exact h0 (by omega)
        have hdiv : n / 10 < n := Nat.div_lt_self hpos (by omega)
        rw [ih (n / 10) hdiv f _ (by omega), ih (n / 10) hdiv n _ hdiv,
          List.append_assoc]
        rfl

theorem toDigits_decomp_small (n : ℕ) (h : n < 10) :
    Nat.toDigits 10 n = [Nat.digitChar n] := by
  rw [show Nat.toDigits 10 n = Nat.toDigitsCore 10 (n + 1) n [] from rfl]
  rw [show Nat.toDigitsCore 10 (n + 1) n [] =
      (if n / 10 = 0 then Nat.digitChar (n % 10) :: ([] : List Char)
       else Nat.toDigitsCore 10 n (n / 10) (Nat.digitChar (n % 10) :: []))
    from by simp [Nat.toDigitsCore]]
  rw [if_pos (Nat.div_eq_of_lt h), Nat.mod_eq_of_lt h]

theorem toDigits_decomp_large (n : ℕ) (h : 10 ≤ n) :
    Nat.toDigits 10 n = Nat.toDigits 10 (n / 10) ++ [Nat.digitChar (n % 10)] := by
  rw [show Nat.toDigits 10 n = Nat.toDigitsCore 10 (n + 1) n [] from rfl]
  rw [show Nat.toDigitsCore 10 (n + 1) n [] =
      (if n / 10 = 0 then Nat.digitChar (n % 10) :: ([] : List Char)
       else Nat.toDigitsCore 10 n (n / 10) (Nat.digitChar (n % 10) :: []))
    from by simp [Nat.toDigitsCore]]
  have h0 : n / 10 ≠ 0 := by
    intro hc
    omega
  rw [if_neg h0]
  exact toDigitsCore_fuel (n / 10) n _ (Nat.div_lt_self (by omega) (by omega))

theorem toDigits_ne_nil (n : ℕ) : Nat.toDigits 10 n ≠ [] := by
  by_cases h : n < 10
  · rw [toDigits_decomp_small n h]
    simp
  · rw [toDigits_decomp_large n (by omega)]
    simp

theorem digitChar_inj_lt_ten :
    ∀ a < 10, ∀ b < 10, Nat.digitChar a = Nat.digitChar b → a = b := by decide

theorem toDigits_injective : ∀ m n : ℕ,
    Nat.toDigits 10 m = Nat.toDigits 10 n → m = n := by
  intro m
  induction m using Nat.strong_induction_on with
  | _ m ih =>
    intro n h
    by_cases hm : m < 10 <;> by_cases hn : n < 10
    · rw [toDigits_decomp_small m hm, toDigits_decomp_small n hn] at h
      exact digitChar_inj_lt_ten m hm n hn (List.cons.injEq .. ▸ h).1
    · rw [toDigits_decomp_small m hm, toDigits_decomp_large n (by omega)] at h
      have hlen := congrArg List.length h
      simp only [List.length_cons, List.length_append, List.length_nil] at hlen
      have h0 : (Nat.toDigits 10 (n / 10)).length = 0 := by omega
      exact absurd (List.length_eq_zero.mp h0) (toDigits_ne_nil (n / 10))
    · rw [toDigits_decomp_large m (by omega), toDigits_decomp_small n hn] at h
      have hlen := congrArg List.length h
      simp only [List.length_cons, List.length_append, List.length_nil] at hlen
      have h0 : (Nat.toDigits 10 (m / 10)).length = 0 := by omega
      exact absurd (List.length_eq_zero.mp h0) (toDigits_ne_nil (m / 10))
    · rw [toDigits_decomp_large m (by omega), toDigits_decomp_large n (by omega)] at h
      obtain ⟨h1, h2⟩ := List.append_inj' h (by simp)
      have hdiv : m / 10 = n / 10 :=
        ih (m / 10) (Nat.div_lt_self (by omega) (by omega)) (n / 10) h1
      have hmod : m % 10 = n % 10 :=
        digitChar_inj_lt_ten (m % 10) (Nat.mod_lt m (by omega)) (n % 10)
          (Nat.mod_lt n (by omega)) (List.cons.injEq .. ▸ h2).1
      have hm10 := Nat.div_add_mod m 10
      have hn10 := Nat.div_add_mod n 10
      omega

theorem nat_repr_injective : ∀ m n : ℕ, Nat.repr m = Nat.repr n → m = n := by
  intro m n h
  apply toDigits_injective
  have : (Nat.toDigits 10 m).asString.data = (Nat.toDigits 10 n).asString.data := by
    rw [show (Nat.toDigits 10 m).asString = Nat.repr m from rfl,
      show (Nat.toDigits 10 n).asString = Nat.repr n from rfl, h]
  simpa using this

theorem chunkId_injective (h : String) : ∀ i j : ℕ, chunkId h i = chunkId h j → i = j := by
  intro i j hij
  unfold chunkId at hij
  have hd := congrArg String.data hij
  rw [String.data_append, String.data_append, String.data_append,
    String.data_append, List.append_assoc, List.append_assoc] at hd
  have := List.append_cancel_left hd
  have := List.append_cancel_left this
  exact nat_repr_injective i j (String.ext this)

theorem dictInsert_same (k : String) (v v' : ChunkRec) (s : Store) :
    dictInsert k v (dictInsert k v' s) = dictInsert k v s := by
  induction s with
  | nil => simp [dictInsert]
  | cons p rest ih =>
    by_cases hk : p.1 = k
    · simp [dictInsert, hk]
    · simp only [dictInsert, if_neg hk]
      rw [ih]

theorem mem_keys_dictInsert (k k1 : String) (v1 : ChunkRec) (s : Store)
    (h : k ∈ s.map Prod.fst) : k ∈ (dictInsert k1 v1 s).map Prod.fst := by
  induction s with
  | nil => simp at h
  | cons p rest ih =>
    rw [List.map_cons] at h
    rcases List.mem_cons.mp h with h1 | h1
    · by_cases hk : p.1 = k1
      · simp only [dictInsert, if_pos hk, List.map_cons]
        exact List.mem_cons.mpr (Or.inl (h1.trans hk))
      · simp only [dictInsert, if_neg hk, List.map_cons]
        exact List.mem_cons.mpr (Or.inl h1)
    · by_cases hk : p.1 = k1
      · simp only [dictInsert, if_pos hk, List.map_cons]
        exact List.mem_cons_of_mem _ h1
      · simp only [dictInsert, if_neg hk, List.map_cons]
        exact List.mem_cons_of_mem _ (ih h1)

theorem dictInsert_comm_of_mem (k k' : String) (w v' : ChunkRec) :
    ∀ t : Store, k ∈ t.map Prod.fst → k ≠ k' →
      dictInsert k w (dictInsert k' v' t) = dictInsert k' v' (dictInsert k w t) := by
  intro t
  induction t with
  | nil => intro h _; simp at h
  | cons p rest ih =>
    intro hmem hne
    by_cases h1 : p.1 = k
    · have h1' : ¬ p.1 = k' := by rw [h1]; exact hne
      simp only [dictInsert, if_pos h1, if_neg h1', if_neg hne]
    · have hmem' : k ∈ rest.map Prod.fst := by
        rw [List.map_cons] at hmem
        rcases List.mem_cons.mp hmem with h2 | h2
        · exact absurd h2.symm h1
        · exact h2
      by_cases h2 : p.1 = k'
      · simp only [dictInsert, if_pos h2, if_neg h1,
          if_neg (fun hc => hne hc.symm : ¬ k' = k)]
      · simp only [dictInsert, if_neg h1, if_neg h2]
        rw [ih hmem' hne]

theorem dictInsert_putChunks_comm (k : String) (w : ChunkRec) :
    ∀ (ps : List (String × ChunkRec)) (t : Store), k ∈ t.map Prod.fst →
      k ∉ ps.map Prod.fst →
      dictInsert k w (putChunks ps t) = putChunks ps (dictInsert k w t) := by
  intro ps
  induction ps with
  | nil => intro t _ _; rfl
  | cons p ps' ih =>
    intro t hmem hnot
    have hne : k ≠ p.1 := by
      intro hc
      exact hnot (by simp [← hc])
    have hnot' : k ∉ ps'.map Prod.fst := by
      intro hc
      exact hnot (by simp [hc])
    rw [show putChunks (p :: ps') t = putChunks ps' (dictInsert p.1 p.2 t) from rfl]
    rw [ih (dictInsert p.1 p.2 t) (mem_keys_dictInsert k p.1 p.2 t hmem) hnot']
    rw [dictInsert_comm_of_mem k p.1 w p.2 t hmem hne]
    rfl

theorem mem_keys_dictInsert_self (k : String) (v : ChunkRec) (s : Store) :
    k ∈ (dictInsert k v s).map Prod.fst := by
  induction s with
  | nil => simp [dictInsert]
  | cons p rest ih =>
    by_cases hk : p.1 = k
    · simp [dictInsert, hk]
    · simp only [dictInsert, if_neg hk]
      simpa using Or.inr (by simpa using ih)

theorem putChunks_twice :
    ∀ (ps qs : List (String × ChunkRec)) (s : Store),
      ps.map Prod.fst = qs.map Prod.fst → (qs.map Prod.fst).Nodup →
      putChunks qs (putChunks ps s) = putChunks qs s := by
  intro ps
  induction ps with
  | nil =>
    intro qs s hkeys _
    have : qs = [] := by
      cases qs with
      | nil => rfl
      | cons q qs' => simp at hkeys
    rw [this]
    rfl
  | cons p ps' ih =>
    intro qs s hkeys hnd
    cases qs with
    | nil => simp at hkeys
    | cons q qs' =>
      simp only [List.map_cons, List.cons.injEq] at hkeys
      obtain ⟨hkey, htail⟩ := hkeys
      rw [List.map_cons] at hnd
      have hnotq : q.1 ∉ qs'.map Prod.fst := (List.nodup_cons.mp hnd).1
      have hnd' : (qs'.map Prod.fst).Nodup := (List.nodup_cons.mp hnd).2
      have hnotp : q.1 ∉ ps'.map Prod.fst := by
        rw [htail]
        exact hnotq
      rw [show putChunks (p :: ps') s = putChunks ps' (dictInsert p.1 p.2 s) from rfl]
      rw [show putChunks (q :: qs') (putChunks ps' (dictInsert p.1 p.2 s)) =
          putChunks qs' (dictInsert q.1 q.2 (putChunks ps' (dictInsert p.1 p.2 s)))
        from rfl]
      rw [dictInsert_putChunks_comm q.1 q.2 ps' (dictInsert p.1 p.2 s)
        (by rw [← hkey]; exact mem_keys_dictInsert_self p.1 p.2 s) hnotp]
      rw [← hkey, dictInsert_same p.1 q.2 p.2 s]
      rw [show putChunks (q :: qs') s = putChunks qs' (dictInsert q.1 q.2 s) from rfl]
      rw [← hkey]
      exact ih qs' (dictInsert p.1 q.2 s) htail hnd'

theorem chunkRecords_keys (h f : String) (m : List (String × String))
    (chunks : List Str) :
    (chunkRecords h f m chunks).map Prod.fst =
      (List.range chunks.length).map (chunkId h) := by
  unfold chunkRecords
  rw [List.map_map, ← List.enum_map_fst chunks, List.map_map]
  rfl

theorem chunkRecords_keys_nodup (h f : String) (m : List (String × String))
    (chunks : List Str) : ((chunkRecords h f m chunks).map Prod.fst).Nodup := by
  rw [chunkRecords_keys]
  exact (List.nodup_range chunks.length).map
    (fun i j hij => chunkId_injective h i j hij)

/-- Claim C6 does not hold for arbitrary pairs of filenames: text extraction
dispatches on the filename extension, so uploading the same 600-word bytes
first as `a.txt` (3 chunks) and then as `b.pdf` (1 chunk, the extraction
error/placeholder string) leaves the two stale chunks `{hash}_1`, `{hash}_2`
of the first upload in the store — the state after both uploads differs both
from the state after the second upload alone and from the state after the
first alone. -/
theorem save_document_dedup_counterexample :
    (save_document witnessHash counterExtract "b.pdf" counterText []
        (save_document witnessHash counterExtract "a.txt" counterText [] []).2).2 ≠
      (save_document witnessHash counterExtract "b.pdf" counterText [] []).2 ∧
    (save_document witnessHash counterExtract "b.pdf" counterText []
        (save_document witnessHash counterExtract "a.txt" counterText [] []).2).2 ≠
      (save_document witnessHash counterExtract "a.txt" counterText [] []).2 := by
  constructor
  · decide
  · decide

/-- Claim C6, amended: uploading byte-identical content twice yields the same
document id both times — the id is the content hash, a function of the bytes
alone, whatever the filenames — and when the two filenames have the same
lower-cased extension (so that extraction sees the same input and produces
the same chunk list), the chunk mapping after both uploads equals the mapping
after the second upload alone: the `{hash}_{index}` chunk ids of the second
pass collide with those of the first and overwrite them, so no chunk is
duplicated.  The theorem holds for every content-hash function and every
extraction function of (content, extension), as in the source. -/
theorem save_document_dedup (hash : Str → String) (extract : Str → String → Str)
    (f1 f2 : String) (m1 m2 : List (String × String)) (content : Str)
    (store : Store)
    (hext : lowerString (pySuffix f1) = lowerString (pySuffix f2)) :
    (save_document hash extract f1 content m1 store).1.id =
      (save_document hash extract f2 content m2 store).1.id ∧
    (save_document hash extract f2 content m2
        (save_document hash extract f1 content m1 store).2).2 =
      (save_document hash extract f2 content m2 store).2 := by
  constructor
  · rfl
  · show putChunks (chunkRecords (hash content) f2 m2
        (chunk_text (extract content (lowerString (pySuffix f2))) 250 50))
        (putChunks (chunkRecords (hash content) f1 m1
          (chunk_text (extract content (lowerString (pySuffix f1))) 250 50)) store) =
      putChunks (chunkRecords (hash content) f2 m2
        (chunk_text (extract content (lowerString (pySuffix f2))) 250 50)) store
    apply putChunks_twice
    · rw [chunkRecords_keys, chunkRecords_keys, hext]
    · exact chunkRecords_keys_nodup _ _ _ _

/-- Witness for claim C6: re-uploading the same bytes under the filenames
`a.txt` and `b.txt` into an empty store. -/
theorem save_document_dedup_witness :
    (save_document witnessHash witnessExtract "a.txt" ("One. Two.".data) [] []).1.id =
      (save_document witnessHash witnessExtract "b.txt" ("One. Two.".data) [] []).1.id ∧
    (save_document witnessHash witnessExtract "b.txt" ("One. Two.".data) []
        (save_document witnessHash witnessExtract "a.txt" ("One. Two.".data) [] []).2).2 =
      (save_document witnessHash witnessExtract "b.txt" ("One. Two.".data) [] []).2 :=
  save_document_dedup witnessHash witnessExtract "a.txt" "b.txt" [] []
    ("One. Two.".data) [] (by decide)

end HRDoc
